import Mathlib

set_option maxRecDepth 100000

/-!
Verification of the battery-cycling data pipeline
(`test.py` = GUI / full-metrics variant, `app.py` = batch / ESR-only variant).

The Python pipeline is shallowly embedded: pandas tables become lists of
records, numeric cells become `Option ℚ` (with `none` standing for pandas
`NaN` arising from a non-numeric cell), float division is modelled by an
explicit value type `FVal` that distinguishes finite values, `+inf`, `-inf`
and `NaN`, and the two step-label regexes are modelled character by
character.  All characters of interest are ASCII, so `Char.toLower`,
`Char.isAlphanum` and `Char.isWhitespace` coincide with the Python behaviour of
case-folding, `\w` and `\s` on the inputs considered.
-/

/- ### Character-level model of the step-label regexes

`test.py` classifies rows with
  `(?:\bcc\b.*(?:chg|charge))|(?:constant\s*current\s*charge)`  and
  `(?:\bcc\b.*(?:dchg|disch|discharge))|(?:constant\s*current\s*discharge)`
both searched case-insensitively (`str.contains` = `re.search`).
-/

/-- Model of the Python regex class `\w`: letters, digits and underscore
(ASCII fragment). -/
def wordChar (c : Char) : Bool := c.isAlphanum || c == '_'

/-- Case-insensitive search is modelled by lowercasing the haystack. -/
def lowerData (s : String) : List Char := s.data.map Char.toLower

/-- Match a literal at the front of the list, returning the remainder. -/
def dropLit : List Char → List Char → Option (List Char)
  | [], s => some s
  | _ :: _, [] => none
  | p :: ps, c :: cs => if p == c then dropLit ps cs else none

/-- Does the literal `p` occur at the front of `s`? -/
def litAt (p s : List Char) : Bool := (dropLit p s).isSome

/-- Does the literal `p` occur anywhere in `s` (the Python `in` operator)? -/
def containsSub (p : List Char) : List Char → Bool
  | [] => litAt p []
  | c :: rest => litAt p (c :: rest) || containsSub p rest

/-- Greedily drop leading whitespace (`\s*` before a literal whose first
character is not whitespace is deterministic). -/
def skipWs : List Char → List Char
  | [] => []
  | c :: rest => if c.isWhitespace then skipWs rest else c :: rest

/-- Word boundary after a token: end of string or a non-word character. -/
def boundaryOk : List Char → Bool
  | [] => true
  | c :: _ => !wordChar c

/-- Value of `wordChar` at the last character of the list, or `prev` if it is empty:
tracks whether the character preceding the current suffix is a word
character (`false` initially = start of string, a `\b` position). -/
def lastWordD (prev : Bool) : List Char → Bool
  | [] => prev
  | c :: rest => lastWordD (wordChar c) rest

/-- Match of `.*(?:p₁|…|pₙ)` at the front of the list: some pattern occurs at a
position reachable by `.*`, i.e. with no newline strictly before it
(`.` does not match a newline without `re.DOTALL`). -/
def dotStarLits (pats : List (List Char)) : List Char → Bool
  | [] => false
  | c :: rest => pats.any (fun p => litAt p (c :: rest)) ||
      (!(c == '\n') && dotStarLits pats rest)

/-- Search for `\bcc\b.*(?:p₁|…|pₙ)` anywhere in the list.  `prev` says
whether the character just before the current suffix is a word character. -/
def ccSearch (pats : List (List Char)) (prev : Bool) : List Char → Bool
  | [] => false
  | c :: rest =>
      (!prev && c == 'c' &&
        (match rest with
         | c2 :: rest2 => c2 == 'c' && boundaryOk rest2 && dotStarLits pats rest2
         | [] => false)) ||
      ccSearch pats (wordChar c) rest

def constantL : List Char := "constant".data
def currentL : List Char := "current".data
def chgL : List Char := "chg".data
def chargeL : List Char := "charge".data
def dchgL : List Char := "dchg".data
def dischL : List Char := "disch".data
def dischargeL : List Char := "discharge".data

/-- Match of `constant\s*current\s*last` at the front of the list. -/
def phraseAt (last : List Char) (s : List Char) : Bool :=
  match dropLit constantL s with
  | none => false
  | some s1 =>
    match dropLit currentL (skipWs s1) with
    | none => false
    | some s2 => litAt last (skipWs s2)

/-- Match of `constant\s*current\s*last` anywhere in the list. -/
def phraseSearch (last : List Char) : List Char → Bool
  | [] => false
  | c :: rest => phraseAt last (c :: rest) || phraseSearch last rest

def chgPats : List (List Char) := [chgL, chargeL]
def dchgPats : List (List Char) := [dchgL, dischL, dischargeL]

/-- The CC-charge mask of `test.py` line 76 / `app.py` line 20:
`str.contains` of the pattern
`(?:\bcc\b.*(?:chg|charge))|(?:constant\s*current\s*charge)`
with `flags=re.IGNORECASE`. -/
def mask_cc_chg (s : String) : Bool :=
  ccSearch chgPats false (lowerData s) || phraseSearch chargeL (lowerData s)

/-- The CC-discharge mask of `test.py` line 91 / `app.py` line 39. -/
def mask_cc_dchg (s : String) : Bool :=
  ccSearch dchgPats false (lowerData s) || phraseSearch dischargeL (lowerData s)


/- ### Column resolver (`test.py` lines 35-63, `app.py` lines 5-11)

`df.columns = df.columns.str.strip().str.lower()` normalizes each header,
then every semantic field is bound to the *first* column whose normalized
name contains its required substrings (`[c for c in df.columns if …][0]`).
The first missing field raises `IndexError`, caught by a handler that
returns one fixed message enumerating all eight requirements. -/

/-- Header normalization: strip surrounding whitespace, then lowercase. -/
def normHeader (s : List Char) : List Char :=
  ((skipWs (skipWs s.reverse).reverse)).map Char.toLower

/-- The lookup `[c for c in cols if p c][0]`, as an `Option`. -/
def firstMatch (p : List Char → Bool) (cols : List (List Char)) : Option (List Char) :=
  (cols.filter p).head?

def cycle_pred (c : List Char) : Bool :=
  containsSub "cycle".data c && containsSub "index".data c

def voltage_pred (c : List Char) : Bool := containsSub "voltage".data c

def current_pred (c : List Char) : Bool := containsSub "current".data c

def step_pred (c : List Char) : Bool :=
  containsSub "step".data c && containsSub "type".data c

def chg_cap_pred (c : List Char) : Bool := containsSub "chg. cap.(ah)".data c

def dchg_cap_pred (c : List Char) : Bool := containsSub "dchg. cap.(ah)".data c

def chg_nrg_pred (c : List Char) : Bool := containsSub "chg. energy(wh)".data c

def dchg_nrg_pred (c : List Char) : Bool := containsSub "dchg. energy(wh)".data c

/-- The resolved semantic-field-to-column mapping of `test.py`. -/
structure ColMap where
  cycle_col : List Char
  voltage_col : List Char
  current_col : List Char
  step_col : List Char
  chg_cap_col : List Char
  dchg_cap_col : List Char
  chg_nrg_col : List Char
  dchg_nrg_col : List Char
deriving DecidableEq

/-- The fixed message returned by the `except IndexError` handler of
`test.py` (quotation marks around the column snippets elided). -/
def colErrMsg : String :=
  "Error: Could not find required columns.\nPlease ensure your file has columns containing:\n- cycle and index\n- voltage\n- current\n- step and type\n- chg. cap.(ah)\n- dchg. cap.(ah)\n- chg. energy(wh)\n- dchg. energy(wh)"

/-- The substrings each required field must match, as listed in the error
message (one entry per line of the message body). -/
def allColPats : List (List Char) :=
  ["cycle".data, "index".data, "voltage".data, "current".data,
   "step".data, "type".data, "chg. cap.(ah)".data, "dchg. cap.(ah)".data,
   "chg. energy(wh)".data, "dchg. energy(wh)".data]

/-- Column resolution on already-normalized headers (`test.py` lines
38-63).  The `try` block performs the eight lookups in order and the first
`[…][0]` on an empty candidate list raises `IndexError`, answered with the
fixed message; since that message does not depend on which lookup failed,
the observable result is: the fixed error when any field has no matching
column, otherwise the eight first-match columns. -/
def resolveColumns (cols : List (List Char)) : Except String ColMap :=
  let o1 := firstMatch cycle_pred cols
  let o2 := firstMatch voltage_pred cols
  let o3 := firstMatch current_pred cols
  let o4 := firstMatch step_pred cols
  let o5 := firstMatch chg_cap_pred cols
  let o6 := firstMatch dchg_cap_pred cols
  let o7 := firstMatch chg_nrg_pred cols
  let o8 := firstMatch dchg_nrg_pred cols
  if o1.isNone || o2.isNone || o3.isNone || o4.isNone ||
     o5.isNone || o6.isNone || o7.isNone || o8.isNone then .error colErrMsg
  else .ok ⟨o1.getD [], o2.getD [], o3.getD [], o4.getD [],
            o5.getD [], o6.getD [], o7.getD [], o8.getD []⟩

/-- Column resolution from the raw headers: normalize first (the
`str.strip().str.lower()` step), then resolve. -/
def resolveFromRaw (cols : List (List Char)) : Except String ColMap :=
  resolveColumns (cols.map normHeader)

deriving instance DecidableEq for Except


/- ### Numeric model

Finite cell values are rationals.  Results of the divisions in the pipeline are
modelled by `FVal`, which keeps pandas/numpy float special values
(`+inf`, `-inf`, `NaN`) explicit.  A raw cell is either numeric or not:
`pd.to_numeric(…, errors="coerce")` turns the latter into `NaN`, modelled
as `Option.none` (cells holding numeric strings are modelled as already
numeric, since `to_numeric` parses them). -/

inductive FVal where
  | num : ℚ → FVal
  | pinf : FVal
  | ninf : FVal
  | nan : FVal
deriving DecidableEq

/-- Float division as performed by pandas on column values: division by
zero yields a signed infinity, `0/0` yields `NaN` (no exception is ever
raised).  The non-finite argument cases (reachable only in the batch
script when a whole column is `NaN`) follow IEEE-754, except that
`finite/±inf` is collapsed to `0` since rationals carry no signed zero;
no theorem below depends on those cases. -/
def fdiv : FVal → FVal → FVal
  | .num a, .num b =>
      if b = 0 then (if a = 0 then .nan else if 0 < a then .pinf else .ninf)
      else .num (a / b)
  | .nan, _ => .nan
  | _, .nan => .nan
  | .pinf, .num b => if b < 0 then .ninf else .pinf
  | .ninf, .num b => if b < 0 then .pinf else .ninf
  | .num _, .pinf => .num 0
  | .num _, .ninf => .num 0
  | .pinf, .pinf => .nan
  | .pinf, .ninf => .nan
  | .ninf, .pinf => .nan
  | .ninf, .ninf => .nan

/-- Multiplication by the scalar 100 (`* 100` on an efficiency column). -/
def fmul100 : FVal → FVal
  | .num q => .num (q * 100)
  | .pinf => .pinf
  | .ninf => .ninf
  | .nan => .nan

/-- The step `replace([inf, -inf], nan)` at the level of one cell. -/
def replaceInf : FVal → FVal
  | .pinf => .nan
  | .ninf => .nan
  | v => v

/-- NaN-propagating subtraction of two possibly-missing cells (a pandas
column difference where either side may be `NaN`). -/
def fsubO : Option ℚ → Option ℚ → FVal
  | some a, some b => .num (a - b)
  | _, _ => .nan

def toOptQ : FVal → Option ℚ
  | .num q => some q
  | _ => none

def notNan : FVal → Bool
  | .nan => false
  | _ => true

def isPinf : FVal → Bool
  | .pinf => true
  | _ => false

def isNinf : FVal → Bool
  | .ninf => true
  | _ => false

/-- Model of `Series.mean()`: `NaN` entries are skipped; with no remaining entries
the mean is `NaN`; an infinity among the remaining entries dominates the
sum (both signs at once give `NaN`); otherwise the finite entries are
averaged over the count of non-`NaN` entries. -/
def fmean (l : List FVal) : FVal :=
  let vs := l.filter notNan
  if vs.isEmpty then .nan
  else if vs.any isPinf && vs.any isNinf then .nan
  else if vs.any isPinf then .pinf
  else if vs.any isNinf then .ninf
  else .num ((vs.filterMap toOptQ).sum / vs.length)

/-- Maximum of two rationals via decidable `≤` (kernel-computable). -/
def qmax (a b : ℚ) : ℚ := if a ≤ b then b else a

/-- Model of `Series.max()` over the listed values (`none` for an empty list,
matching the `NaN` a pandas all-`NaN`/empty aggregation produces). -/
def listMaxQ : List ℚ → Option ℚ
  | [] => none
  | q :: qs =>
    match listMaxQ qs with
    | none => some q
    | some m => some (qmax q m)

/- ### Data model and the `test.py` pipeline

A `RawRow` is one spreadsheet row after column resolution: the eight
semantic columns of interest, numeric ones as `Cell`s.  `py` floats are
modelled by rationals. -/

inductive Cell where
  | num : ℚ → Cell
  | na : Cell
deriving DecidableEq

/-- The coercion `pd.to_numeric(…, errors="coerce")` on one cell. -/
def toNum : Cell → Option ℚ
  | .num q => some q
  | .na => none

structure RawRow where
  cycle : Int
  voltage : Cell
  current : Cell
  step : String
  chgCap : Cell
  dchgCap : Cell
  chgNrg : Cell
  dchgNrg : Cell
deriving DecidableEq

/-- The filter `df.dropna(subset=[voltage_col, current_col])`: keep rows whose
voltage and current are numeric. -/
def cleanRows (rows : List RawRow) : List RawRow :=
  rows.filter (fun r => (toNum r.voltage).isSome && (toNum r.current).isSome)

/-- The subset `df_cc_chg = df[mask_cc_chg]` of a (cleaned) table. -/
def df_cc_chg (df : List RawRow) : List RawRow :=
  df.filter (fun r => mask_cc_chg r.step)

/-- The subset `df_cc_dchg = df[mask_cc_dchg]`. -/
def df_cc_dchg (df : List RawRow) : List RawRow :=
  df.filter (fun r => mask_cc_dchg r.step)

/-- The aggregate `sub.groupby(cycle_col)[col].max()` looked up at key `k`: the maximum
of the numeric values of column `f` over the rows of `sub` with that cycle
index; `none` when there is no such value (key absent, or all `NaN`). -/
def groupMax (sub : List RawRow) (f : RawRow → Cell) (k : Int) : Option ℚ :=
  listMaxQ (((sub.filter (fun r => r.cycle == k)).filterMap (fun r => toNum (f r))))

def max_v_cc_chg (df : List RawRow) (k : Int) : Option ℚ :=
  groupMax (df_cc_chg df) (fun r => r.voltage) k

def max_i_cc_chg (df : List RawRow) (k : Int) : Option ℚ :=
  groupMax (df_cc_chg df) (fun r => r.current) k

def max_v_cc_dchg (df : List RawRow) (k : Int) : Option ℚ :=
  groupMax (df_cc_dchg df) (fun r => r.voltage) k

def max_i_cc_dchg (df : List RawRow) (k : Int) : Option ℚ :=
  groupMax (df_cc_dchg df) (fun r => r.current) k

def chg_cap (df : List RawRow) (k : Int) : Option ℚ :=
  groupMax df (fun r => r.chgCap) k

def dchg_cap (df : List RawRow) (k : Int) : Option ℚ :=
  groupMax df (fun r => r.dchgCap) k

def chg_nrg (df : List RawRow) (k : Int) : Option ℚ :=
  groupMax df (fun r => r.chgNrg) k

def dchg_nrg (df : List RawRow) (k : Int) : Option ℚ :=
  groupMax df (fun r => r.dchgNrg) k

def insertSorted (k : Int) : List Int → List Int
  | [] => [k]
  | x :: xs => if k ≤ x then k :: x :: xs else x :: insertSorted k xs

def sortInts (l : List Int) : List Int := l.foldr insertSorted []

/-- The key set of the eight-way outer merge, sorted ascending
(`merge(…, how="outer")` unions the per-aggregate key sets; the charge and
discharge subsets are subsets of `df`, so the union is the cycle-key set
of `df`; `sort_values("Cycle Index")` sorts it). -/
def mergedKeys (df : List RawRow) : List Int :=
  sortInts (df.map (fun r => r.cycle)).dedup

/-- One row of the merged table, fields `none` where the outer join left
`NaN`. -/
structure MergedRow where
  cycle : Int
  vchg : Option ℚ
  vdchg : Option ℚ
  ichg : Option ℚ
  idchg : Option ℚ
  ccap : Option ℚ
  dcap : Option ℚ
  cnrg : Option ℚ
  dnrg : Option ℚ
deriving DecidableEq

def mergedRowFor (df : List RawRow) (k : Int) : MergedRow :=
  ⟨k, max_v_cc_chg df k, max_v_cc_dchg df k, max_i_cc_chg df k,
    max_i_cc_dchg df k, chg_cap df k, dchg_cap df k, chg_nrg df k, dchg_nrg df k⟩

/-- The merged table before `dropna()`. -/
def mergedAll (df : List RawRow) : List MergedRow :=
  (mergedKeys df).map (mergedRowFor df)

/-- The step `dropna()` on the merged table keeps rows with all eight value fields
present (the cycle-index key is never `NaN`). -/
def isComplete (m : MergedRow) : Bool :=
  m.vchg.isSome && m.vdchg.isSome && m.ichg.isSome && m.idchg.isSome &&
  m.ccap.isSome && m.dcap.isSome && m.cnrg.isSome && m.dnrg.isSome

/-- One row of the final table with its derived-metric cells. -/
structure MetricRow where
  cycle : Int
  vchg : ℚ
  vdchg : ℚ
  ichg : ℚ
  idchg : ℚ
  ccap : ℚ
  dcap : ℚ
  cnrg : ℚ
  dnrg : ℚ
  esr : FVal
  ce : FVal
  ee : FVal
deriving DecidableEq

/-- Extraction of a complete merged row plus the three derived columns of
`test.py` lines 144-152: `ESR = (Vchg-Vdchg)/(Ichg-Idchg)`,
`CE = (dcap/ccap)*100`, `EE = (dnrg/cnrg)*100`.  (`getD 0` is only ever
applied after `isComplete`.) -/
def mkMetric (m : MergedRow) : MetricRow :=
  let a := m.vchg.getD 0
  let b := m.vdchg.getD 0
  let c := m.ichg.getD 0
  let d := m.idchg.getD 0
  let e := m.ccap.getD 0
  let f := m.dcap.getD 0
  let g := m.cnrg.getD 0
  let h := m.dnrg.getD 0
  ⟨m.cycle, a, b, c, d, e, f, g, h,
    fdiv (.num (a - b)) (.num (c - d)),
    fmul100 (fdiv (.num f) (.num e)),
    fmul100 (fdiv (.num h) (.num g))⟩

/-- The final per-cycle table: merged, sorted, `dropna()`-filtered, with
the derived columns computed. -/
def finalMetrics (df : List RawRow) : List MetricRow :=
  ((mergedAll df).filter isComplete).map mkMetric

/-- The step `merged.replace([inf, -inf], nan)` applied to a final row: only the
three derived columns can be non-finite. -/
def normalizeRow (t : MetricRow) : MetricRow :=
  { t with esr := replaceInf t.esr, ce := replaceInf t.ce, ee := replaceInf t.ee }

/-- Rounding `round(6)` on one rational. -/
def rnd6 (q : ℚ) : ℚ := (round (q * 1000000) : ℚ) / 1000000

def rnd6F : FVal → FVal
  | .num q => .num (rnd6 q)
  | v => v

/-- Rounding `merged.round(6)` on a final row (the integer cycle index is
unchanged by rounding). -/
def round6Row (t : MetricRow) : MetricRow :=
  { t with vchg := rnd6 t.vchg, vdchg := rnd6 t.vdchg, ichg := rnd6 t.ichg,
           idchg := rnd6 t.idchg, ccap := rnd6 t.ccap, dcap := rnd6 t.dcap,
           cnrg := rnd6 t.cnrg, dnrg := rnd6 t.dnrg,
           esr := rnd6F t.esr, ce := rnd6F t.ce, ee := rnd6F t.ee }

/-- What `process_battery_data` returns on success: the displayed table
and the three summary means. -/
structure PipelineResult where
  table : List MetricRow
  avg_esr : FVal
  avg_ce : FVal
  avg_ee : FVal
deriving DecidableEq

def noChgMsg : String := "Error: No Constant Current Charge steps found."

def noDchgMsg : String := "Error: No Constant Current Discharge steps found."

def noCompleteMsg : String := "Error: No matching charge/discharge cycles found."

/-- The core of the `process_battery_data` function of `test.py` after file reading and
column resolution, on the coerced table: drop rows with non-numeric
voltage/current, check the two classification subsets, build the merged
table, drop incomplete cycles, compute the derived columns, replace
infinities, take the summary means, round for display.  (The derived
columns are computed here inside `finalMetrics`, before the emptiness
check rather than after; both orders give the same pure result.) -/
def processFromClean (df : List RawRow) : Except String PipelineResult :=
  if (df_cc_chg df).isEmpty then .error noChgMsg
  else if (df_cc_dchg df).isEmpty then .error noDchgMsg
  else
    let fin := finalMetrics df
    if fin.isEmpty then .error noCompleteMsg
    else
      let normd := fin.map normalizeRow
      .ok ⟨normd.map round6Row,
           fmean (normd.map (fun t => t.esr)),
           fmean (normd.map (fun t => t.ce)),
           fmean (normd.map (fun t => t.ee))⟩

def process_battery_data (rows : List RawRow) : Except String PipelineResult :=
  processFromClean (cleanRows rows)

/- ### The `app.py` (batch, ESR-only) variant

No `dropna` at all: the raw coerced table is classified directly, the four
voltage/current aggregates are outer-merged and sorted, and the headline
ESR of the script is `mean(ΔV)/mean(ΔI)` over that table. -/

structure AppRow where
  cycle : Int
  vchg : Option ℚ
  vdchg : Option ℚ
  ichg : Option ℚ
  idchg : Option ℚ
deriving DecidableEq

/-- Key set of the outer merge in `app.py`: cycles appearing in the charge or
the discharge subset, sorted. -/
def appKeys (rows : List RawRow) : List Int :=
  sortInts (((df_cc_chg rows).map (fun r => r.cycle)) ++
            ((df_cc_dchg rows).map (fun r => r.cycle))).dedup

def appRowFor (rows : List RawRow) (k : Int) : AppRow :=
  ⟨k, groupMax (df_cc_chg rows) (fun r => r.voltage) k,
     groupMax (df_cc_dchg rows) (fun r => r.voltage) k,
     groupMax (df_cc_chg rows) (fun r => r.current) k,
     groupMax (df_cc_dchg rows) (fun r => r.current) k⟩

/-- The `merged` table of `app.py` (kept as-is: no `dropna`). -/
def appMerged (rows : List RawRow) : List AppRow :=
  (appKeys rows).map (appRowFor rows)

/-- The scalar `dv = (Vchg - Vdchg).mean()` over the merged table. -/
def app_dv (l : List AppRow) : FVal :=
  fmean (l.map (fun m => fsubO m.vchg m.vdchg))

/-- The scalar `di = (Ichg - Idchg).mean()`. -/
def app_di (l : List AppRow) : FVal :=
  fmean (l.map (fun m => fsubO m.ichg m.idchg))

/-- The headline ESR figure of the batch script: `esr = dv / di`. -/
def app_esr (l : List AppRow) : FVal := fdiv (app_dv l) (app_di l)

/-- The per-cycle ESR column of the batch script (computed without any
`replace` of infinities). -/
def appPerCycleESR (m : AppRow) : FVal :=
  fdiv (fsubO m.vchg m.vdchg) (fsubO m.ichg m.idchg)

/- ### Concrete tables used by witnesses and counterexamples -/

/-- Two complete cycles; cycle 2 has equal CC-charge and CC-discharge
maximum currents (zero ESR denominator). -/
def sampleTwoCycles : List RawRow :=
  [⟨1, .num 2, .num 1, "CC Chg", .num 1, .num 1, .num 1, .num 1⟩,
   ⟨1, .num 1, .num 0, "CC DChg", .num 1, .num 1, .num 1, .num 1⟩,
   ⟨2, .num 2, .num 5, "CC Chg", .num 1, .num 1, .num 1, .num 1⟩,
   ⟨2, .num 1, .num 5, "CC DChg", .num 1, .num 1, .num 1, .num 1⟩]

/-- One cycle whose charge and discharge maximum currents coincide. -/
def sampleZeroDelta : List RawRow :=
  [⟨1, .num 4, .num 2, "CC Chg", .num 1, .num 1, .num 1, .num 1⟩,
   ⟨1, .num 3, .num 2, "CC DChg", .num 1, .num 1, .num 1, .num 1⟩]

/-- A single CC-charge row and no discharge row at all. -/
def sampleChargeOnly : List RawRow :=
  [⟨1, .num 2, .num 1, "CC Chg", .na, .na, .na, .na⟩]

/-- A single rest row: neither classification subset is inhabited. -/
def sampleRestOnly : List RawRow :=
  [⟨1, .num 1, .num 1, "Rest", .na, .na, .na, .na⟩]

/- ### The claim-side reading of the charge pattern

`chargeClaim` states the amended C1 wording over the lowercased text: a
standalone token "cc" (word-boundary delimited, underscore counting as a
word character) followed later in the string, with no intervening newline,
by "chg" or "charge"; or the phrase "constant current charge" with
arbitrary whitespace between the words. -/

def chargeTokenProp (s : List Char) : Prop :=
  ∃ u a b : List Char, s = u ++ 'c' :: 'c' :: (a ++ b) ∧ lastWordD false u = false ∧
    boundaryOk (a ++ b) = true ∧ (∀ x ∈ a, ¬(x = '\n')) ∧
    (litAt chgL b = true ∨ litAt chargeL b = true)

def wsPhraseProp (last : List Char) (s : List Char) : Prop :=
  ∃ u w1 w2 rest : List Char,
    s = u ++ (constantL ++ (w1 ++ (currentL ++ (w2 ++ (last ++ rest))))) ∧
    (∀ x ∈ w1, x.isWhitespace = true) ∧ (∀ x ∈ w2, x.isWhitespace = true)

def chargeClaim (s : List Char) : Prop :=
  chargeTokenProp s ∨ wsPhraseProp chargeL s

/- ### Claim-side summary definitions (following the wording of the spec) -/

/-- The summary rule of the spec for the full pipeline: the arithmetic mean of
the per-cycle ESR values over exactly the cycles where ESR is defined
(denominator `maxI_chg - maxI_dchg` nonzero); `none` when no cycle has a
defined ESR. -/
def specMeanESR (l : List MetricRow) : Option ℚ :=
  let ds := l.filterMap (fun t => if t.ichg = t.idchg then none
    else some ((t.vchg - t.vdchg) / (t.ichg - t.idchg)))
  if ds.isEmpty then none else some (ds.sum / ds.length)

/-- The same summary rule read over the merged table of the batch script: mean
of `ΔV/ΔI` over the cycles where all four inputs exist and `ΔI ≠ 0`. -/
def specMeanESRApp (l : List AppRow) : Option ℚ :=
  let ds := l.filterMap (fun m =>
    match m.vchg, m.vdchg, m.ichg, m.idchg with
    | some a, some b, some c, some d => if c = d then none else some ((a - b) / (c - d))
    | _, _, _, _ => none)
  if ds.isEmpty then none else some (ds.sum / ds.length)

/-- A single CC-discharge row, used to witness C2. -/
def ccdchgRow : RawRow := ⟨1, .num 3, .num 2, "CC DChg", .na, .na, .na, .na⟩

/-- A complete header set in the order of a typical cycler export. -/
def goodCols : List (List Char) :=
  ["cycle index".data, "voltage(v)".data, "current(a)".data, "step type".data,
   "chg. cap.(ah)".data, "dchg. cap.(ah)".data, "chg. energy(wh)".data,
   "dchg. energy(wh)".data]

/-- The column map `goodCols` resolves to. -/
def goodColMap : ColMap :=
  ⟨"cycle index".data, "voltage(v)".data, "current(a)".data, "step type".data,
   "chg. cap.(ah)".data, "dchg. cap.(ah)".data, "chg. energy(wh)".data,
   "dchg. energy(wh)".data⟩

/-- A row with a non-numeric voltage cell but a large charge capacity. -/
def badVoltageRow : RawRow := ⟨1, .na, .num 1, "CC Chg", .num 99, .na, .na, .na⟩


/- ### Characterizations of the regex model

These lemmas restate the recursive matchers as existence of explicit
decompositions of the searched string, so that claims phrased in the
vocabulary of the spec ("the token cc followed later by …") can be
compared with the matchers of the code. -/

theorem dropLit_iff (p : List Char) : ∀ (s r : List Char), dropLit p s = some r ↔ s = p ++ r := by
  induction p with
  | nil => intro s r; simp [dropLit]
  | cons ph pt ih =>
    intro s r
    cases s with
    | nil => simp [dropLit]
    | cons c cs =>
      simp only [dropLit, List.cons_append]
      by_cases h : ph = c
      · subst h
        simp [ih cs r]
      · have hb : (ph == c) = false := beq_eq_false_iff_ne.mpr h
        simp [hb, List.cons.injEq, Ne.symm h]

theorem litAt_iff (p s : List Char) : litAt p s = true ↔ ∃ r, s = p ++ r := by
  unfold litAt
  cases hd : dropLit p s with
  | none =>
    simp only [Option.isSome_none, Bool.false_eq_true, false_iff]
    rintro ⟨r, rfl⟩
    rw [(dropLit_iff p (p ++ r) r).mpr rfl] at hd
    exact Option.noConfusion hd
  | some r =>
    simp only [Option.isSome_some, true_iff]
    exact ⟨r, (dropLit_iff p s r).mp hd⟩

theorem dotStarLits_iff (pats : List (List Char)) (hp : ∀ p ∈ pats, p ≠ []) :
    ∀ s : List Char, dotStarLits pats s = true ↔
      ∃ a b : List Char, s = a ++ b ∧ (∀ x ∈ a, ¬(x = '\n')) ∧
        ∃ p ∈ pats, litAt p b = true := by
  intro s
  induction s with
  | nil =>
    simp only [dotStarLits, Bool.false_eq_true, false_iff]
    rintro ⟨a, b, hab, -, p, hpmem, hlit⟩
    obtain ⟨ha, hb⟩ := List.append_eq_nil.mp hab.symm
    subst hb
    obtain ⟨r, hr⟩ := (litAt_iff p []).mp hlit
    obtain ⟨hp0, -⟩ := List.append_eq_nil.mp hr.symm
    exact hp p hpmem hp0
  | cons c rest ih =>
    simp only [dotStarLits, Bool.or_eq_true, Bool.and_eq_true, List.any_eq_true,
      Bool.not_eq_true', beq_eq_false_iff_ne, ne_eq]
    constructor
    · rintro (⟨p, hpmem, hlit⟩ | ⟨hc, htail⟩)
      · exact ⟨[], c :: rest, rfl, by simp, p, hpmem, hlit⟩
      · obtain ⟨a, b, hab, hnl, p, hpmem, hlit⟩ := ih.mp htail
        exact ⟨c :: a, b, by simp [hab], by simpa [hc] using hnl, p, hpmem, hlit⟩
    · rintro ⟨a, b, hab, hnl, p, hpmem, hlit⟩
      cases a with
      | nil =>
        left
        simp only [List.nil_append] at hab
        exact ⟨p, hpmem, hab ▸ hlit⟩
      | cons a0 atl =>
        right
        simp only [List.cons_append, List.cons.injEq] at hab
        obtain ⟨rfl, hab⟩ := hab
        refine ⟨hnl c (by simp), ih.mpr ⟨atl, b, hab, ?_, p, hpmem, hlit⟩⟩
        intro x hx
        exact hnl x (by simp [hx])

theorem ccSearch_iff (pats : List (List Char)) :
    ∀ (s : List Char) (prev : Bool), ccSearch pats prev s = true ↔
      ∃ u v : List Char, s = u ++ 'c' :: 'c' :: v ∧ lastWordD prev u = false ∧
        boundaryOk v = true ∧ dotStarLits pats v = true := by
  intro s
  induction s with
  | nil =>
    intro prev
    simp only [ccSearch, Bool.false_eq_true, false_iff]
    rintro ⟨u, v, hab, -⟩
    exact absurd (List.append_eq_nil.mp hab.symm).2 (by simp)
  | cons c rest ih =>
    intro prev
    simp only [ccSearch, Bool.or_eq_true, Bool.and_eq_true, Bool.not_eq_true',
      beq_iff_eq]
    constructor
    · rintro (⟨⟨hprev, hc⟩, hm⟩ | htail)
      · subst hc
        cases rest with
        | nil => exact absurd hm (by simp)
        | cons c2 rest2 =>
          simp only [Bool.and_eq_true, beq_iff_eq] at hm
          obtain ⟨⟨hc2, hbd⟩, hdot⟩ := hm
          subst hc2
          exact ⟨[], rest2, rfl, hprev, hbd, hdot⟩
      · obtain ⟨u, v, hab, hlast, hbd, hdot⟩ := (ih (wordChar c)).mp htail
        exact ⟨c :: u, v, by simp [hab], hlast, hbd, hdot⟩
    · rintro ⟨u, v, hab, hlast, hbd, hdot⟩
      cases u with
      | nil =>
        left
        simp only [List.nil_append, List.cons.injEq] at hab
        obtain ⟨rfl, hab⟩ := hab
        subst hab
        exact ⟨⟨hlast, rfl⟩, by simp [hbd, hdot]⟩
      | cons u0 utl =>
        right
        simp only [List.cons_append, List.cons.injEq] at hab
        obtain ⟨rfl, hab⟩ := hab
        exact (ih (wordChar c)).mpr ⟨utl, v, hab, hlast, hbd, hdot⟩

theorem skipWs_dropLit (c : Char) (cs : List Char) (hc : c.isWhitespace = false) :
    ∀ (s r : List Char), dropLit (c :: cs) (skipWs s) = some r ↔
      ∃ w, s = w ++ ((c :: cs) ++ r) ∧ ∀ x ∈ w, x.isWhitespace = true := by
  intro s
  induction s with
  | nil =>
    intro r
    constructor
    · intro h
      simp [skipWs, dropLit] at h
    · rintro ⟨w, hw, -⟩
      obtain ⟨-, h2⟩ := List.append_eq_nil.mp hw.symm
      obtain ⟨h3, -⟩ := List.append_eq_nil.mp h2
      exact List.noConfusion h3
  | cons x s' ih =>
    intro r
    by_cases hx : x.isWhitespace
    · rw [show skipWs (x :: s') = skipWs s' from by simp [skipWs, hx], ih r]
      constructor
      · rintro ⟨w, hw, hws⟩
        refine ⟨x :: w, by simp [hw], ?_⟩
        intro y hy
        rcases List.mem_cons.mp hy with rfl | hy
        · exact hx
        · exact hws y hy
      · rintro ⟨w, hw, hws⟩
        cases w with
        | nil =>
          exfalso
          simp only [List.nil_append, List.cons_append, List.cons.injEq] at hw
          rw [hw.1] at hx
          rw [hx] at hc
          exact Bool.noConfusion hc
        | cons w0 wtl =>
          simp only [List.cons_append, List.cons.injEq] at hw
          obtain ⟨rfl, hw⟩ := hw
          exact ⟨wtl, hw, fun y hy => hws y (by simp [hy])⟩
    · rw [show skipWs (x :: s') = x :: s' from by simp [skipWs, hx],
        dropLit_iff (c :: cs) (x :: s') r]
      constructor
      · intro h
        exact ⟨[], by simpa using h, by simp⟩
      · rintro ⟨w, hw, hws⟩
        cases w with
        | nil => simpa using hw
        | cons w0 wtl =>
          exfalso
          simp only [List.cons_append, List.cons.injEq] at hw
          obtain ⟨rfl, -⟩ := hw
          exact absurd (hws x (by simp)) (by simp [hx])

theorem skipWs_litAt (c : Char) (cs : List Char) (hc : c.isWhitespace = false)
    (s : List Char) :
    litAt (c :: cs) (skipWs s) = true ↔
      ∃ w rest, s = w ++ ((c :: cs) ++ rest) ∧ ∀ x ∈ w, x.isWhitespace = true := by
  unfold litAt
  rw [Option.isSome_iff_exists]
  constructor
  · rintro ⟨r, hr⟩
    obtain ⟨w, hw, hws⟩ := (skipWs_dropLit c cs hc s r).mp hr
    exact ⟨w, r, hw, hws⟩
  · rintro ⟨w, rest, hw, hws⟩
    exact ⟨rest, (skipWs_dropLit c cs hc s rest).mpr ⟨w, hw, hws⟩⟩

theorem phraseAt_eq1 (last s : List Char) (h : dropLit constantL s = none) :
    phraseAt last s = false := by
  unfold phraseAt
  rw [h]

theorem phraseAt_eq2 (last s s1 : List Char) (h : dropLit constantL s = some s1)
    (h2 : dropLit currentL (skipWs s1) = none) : phraseAt last s = false := by
  unfold phraseAt
  rw [h]
  show (match dropLit currentL (skipWs s1) with
        | none => false
        | some s2 => litAt last (skipWs s2)) = false
  rw [h2]

theorem phraseAt_eq3 (last s s1 s2 : List Char) (h : dropLit constantL s = some s1)
    (h2 : dropLit currentL (skipWs s1) = some s2) :
    phraseAt last s = litAt last (skipWs s2) := by
  unfold phraseAt
  rw [h]
  show (match dropLit currentL (skipWs s1) with
        | none => false
        | some s2 => litAt last (skipWs s2)) = litAt last (skipWs s2)
  rw [h2]

theorem phraseAt_iff (c : Char) (cs : List Char) (hc : c.isWhitespace = false)
    (w : List Char) :
    phraseAt (c :: cs) w = true ↔
      ∃ w1 w2 rest, w = constantL ++ (w1 ++ (currentL ++ (w2 ++ ((c :: cs) ++ rest)))) ∧
        (∀ x ∈ w1, x.isWhitespace = true) ∧ (∀ x ∈ w2, x.isWhitespace = true) := by
  have hcur : currentL = 'c' :: "urrent".data := by decide
  have hcw : ('c' : Char).isWhitespace = false := by decide
  cases h1 : dropLit constantL w with
  | none =>
    rw [phraseAt_eq1 _ _ h1]
    simp only [Bool.false_eq_true, false_iff]
    rintro ⟨w1, w2, rest, hw, -, -⟩
    rw [(dropLit_iff constantL w _).mpr hw] at h1
    exact Option.noConfusion h1
  | some s1 =>
    have hw1 : w = constantL ++ s1 := (dropLit_iff _ _ _).mp h1
    cases h2 : dropLit currentL (skipWs s1) with
    | none =>
      rw [phraseAt_eq2 _ _ _ h1 h2]
      simp only [Bool.false_eq_true, false_iff]
      rintro ⟨w1, w2, rest, hw, hws1, hws2⟩
      rw [hw1] at hw
      have hs1 : s1 = w1 ++ (currentL ++ (w2 ++ ((c :: cs) ++ rest))) :=
        List.append_cancel_left hw
      rw [hcur] at h2
      rw [(skipWs_dropLit 'c' "urrent".data hcw s1 (w2 ++ ((c :: cs) ++ rest))).mpr
        ⟨w1, by rw [hs1, hcur], hws1⟩] at h2
      exact Option.noConfusion h2
    | some s2 =>
      rw [phraseAt_eq3 _ _ _ _ h1 h2]
      obtain ⟨wA, hwA, hwsA⟩ := (skipWs_dropLit 'c' "urrent".data hcw s1 s2).mp
        (by rw [← hcur]; exact h2)
      rw [← hcur] at hwA
      constructor
      · intro hlit
        obtain ⟨wB, rest, hwB, hwsB⟩ := skipWs_litAt c cs hc s2 |>.mp hlit
        exact ⟨wA, wB, rest, by rw [hw1, hwA, hwB], hwsA, hwsB⟩
      · rintro ⟨w1, w2, rest, hw, hws1, hws2⟩
        rw [hw1] at hw
        have hs1 : s1 = w1 ++ (currentL ++ (w2 ++ ((c :: cs) ++ rest))) :=
          List.append_cancel_left hw
        have hdet : dropLit currentL (skipWs s1) = some (w2 ++ ((c :: cs) ++ rest)) := by
          rw [hcur]
          exact (skipWs_dropLit 'c' "urrent".data hcw s1 _).mpr
            ⟨w1, by rw [hs1, hcur], hws1⟩
        rw [h2] at hdet
        obtain rfl := (Option.some.injEq _ _).mp hdet
        exact (skipWs_litAt c cs hc (w2 ++ ((c :: cs) ++ rest))).mpr ⟨w2, rest, rfl, hws2⟩

theorem phraseSearch_iff (last : List Char) :
    ∀ s : List Char, phraseSearch last s = true ↔
      ∃ u w : List Char, s = u ++ w ∧ phraseAt last w = true := by
  intro s
  induction s with
  | nil =>
    simp only [phraseSearch, Bool.false_eq_true, false_iff]
    rintro ⟨u, w, huw, hat⟩
    obtain ⟨rfl, rfl⟩ := List.append_eq_nil.mp huw.symm
    rw [phraseAt_eq1 last [] (by decide)] at hat
    exact Bool.noConfusion hat
  | cons x s' ih =>
    simp only [phraseSearch, Bool.or_eq_true]
    constructor
    · rintro (hat | htail)
      · exact ⟨[], x :: s', rfl, hat⟩
      · obtain ⟨u, w, huw, hat⟩ := ih.mp htail
        exact ⟨x :: u, w, by simp [huw], hat⟩
    · rintro ⟨u, w, huw, hat⟩
      cases u with
      | nil =>
        left
        simp only [List.nil_append] at huw
        exact huw ▸ hat
      | cons u0 utl =>
        right
        simp only [List.cons_append, List.cons.injEq] at huw
        obtain ⟨rfl, huw⟩ := huw
        exact ih.mpr ⟨utl, w, huw, hat⟩

theorem mask_cc_chg_iff (t : String) : mask_cc_chg t = true ↔ chargeClaim (lowerData t) := by
  have hchg : chargeL = 'c' :: "harge".data := by decide
  have hcw : ('c' : Char).isWhitespace = false := by decide
  unfold mask_cc_chg chargeClaim
  rw [Bool.or_eq_true]
  constructor
  · rintro (hcc | hph)
    · left
      obtain ⟨u, v, hsplit, hlast, hbd, hdot⟩ :=
        (ccSearch_iff chgPats (lowerData t) false).mp hcc
      obtain ⟨a, b, rfl, hnl, p, hpmem, hlit⟩ :=
        (dotStarLits_iff chgPats (by decide) v).mp hdot
      refine ⟨u, a, b, hsplit, hlast, hbd, hnl, ?_⟩
      rcases show p = chgL ∨ p = chargeL by simpa [chgPats] using hpmem with rfl | rfl
      · exact Or.inl hlit
      · exact Or.inr hlit
    · right
      obtain ⟨u, w, heq, hat⟩ := (phraseSearch_iff chargeL (lowerData t)).mp hph
      rw [hchg] at hat
      obtain ⟨w1, w2, rest, rfl, hws1, hws2⟩ :=
        (phraseAt_iff 'c' "harge".data hcw w).mp hat
      exact ⟨u, w1, w2, rest, by rw [heq, hchg], hws1, hws2⟩
  · rintro (⟨u, a, b, hsplit, hlast, hbd, hnl, hlit⟩ |
      ⟨u, w1, w2, rest, hsplit, hws1, hws2⟩)
    · left
      refine (ccSearch_iff chgPats (lowerData t) false).mpr
        ⟨u, a ++ b, hsplit, hlast, hbd, ?_⟩
      refine (dotStarLits_iff chgPats (by decide) (a ++ b)).mpr ⟨a, b, rfl, hnl, ?_⟩
      rcases hlit with h | h
      · exact ⟨chgL, by simp [chgPats], h⟩
      · exact ⟨chargeL, by simp [chgPats], h⟩
    · right
      refine (phraseSearch_iff chargeL (lowerData t)).mpr
        ⟨u, constantL ++ (w1 ++ (currentL ++ (w2 ++ (chargeL ++ rest)))), hsplit, ?_⟩
      rw [hchg]
      exact (phraseAt_iff 'c' "harge".data hcw _).mpr ⟨w1, w2, rest, rfl, hws1, hws2⟩

/- ### Monotonicity: a `cc…dchg` match is also a `cc…chg` match -/

theorem dotStarLits_subset (P Q : List (List Char)) (h : ∀ p ∈ P, p ∈ Q) :
    ∀ v, dotStarLits P v = true → dotStarLits Q v = true := by
  intro v
  induction v with
  | nil => simp [dotStarLits]
  | cons c rest ih =>
    simp only [dotStarLits, Bool.or_eq_true, Bool.and_eq_true, List.any_eq_true]
    rintro (⟨p, hp, hl⟩ | ⟨hc, ht⟩)
    · exact Or.inl ⟨p, h p hp, hl⟩
    · exact Or.inr ⟨hc, ih ht⟩

theorem dotStarLits_dchg_chg :
    ∀ v, dotStarLits [dchgL] v = true → dotStarLits chgPats v = true := by
  intro v
  induction v with
  | nil => simp [dotStarLits]
  | cons c rest ih =>
    simp only [dotStarLits, Bool.or_eq_true, Bool.and_eq_true, List.any_eq_true]
    rintro (⟨p, hp, hl⟩ | ⟨hc, ht⟩)
    · obtain rfl := show p = dchgL by simpa using hp
      obtain ⟨r, hr⟩ := (litAt_iff dchgL (c :: rest)).mp hl
      rw [show dchgL = 'd' :: chgL from by decide] at hr
      simp only [List.cons_append, List.cons.injEq] at hr
      obtain ⟨rfl, hrest⟩ := hr
      refine Or.inr ⟨by decide, ?_⟩
      have hlit : litAt chgL rest = true := (litAt_iff chgL rest).mpr ⟨r, hrest⟩
      cases rest with
      | nil =>
        obtain ⟨h1, -⟩ := List.append_eq_nil.mp hrest.symm
        exact absurd h1 (by decide)
      | cons r0 rtl =>
        simp only [dotStarLits, Bool.or_eq_true, List.any_eq_true]
        exact Or.inl ⟨chgL, by simp [chgPats], hlit⟩
    · exact Or.inr ⟨hc, ih ht⟩

theorem ccSearch_mono (P Q : List (List Char))
    (h : ∀ v, dotStarLits P v = true → dotStarLits Q v = true) :
    ∀ (s : List Char) (prev : Bool), ccSearch P prev s = true → ccSearch Q prev s = true := by
  intro s
  induction s with
  | nil => intro prev; simp [ccSearch]
  | cons c rest ih =>
    intro prev
    simp only [ccSearch, Bool.or_eq_true, Bool.and_eq_true]
    rintro (⟨hp, hm⟩ | ht)
    · left
      refine ⟨hp, ?_⟩
      cases rest with
      | nil => exact absurd hm (by simp)
      | cons c2 rest2 =>
        simp only [Bool.and_eq_true] at hm ⊢
        exact ⟨hm.1, h rest2 hm.2⟩
    · exact Or.inr (ih (wordChar c) ht)

/- ### Maxima: every member bounds below the group maximum -/

theorem qmax_left (a b : ℚ) : a ≤ qmax a b := by
  unfold qmax
  split
  · assumption
  · exact le_refl a

theorem qmax_right (a b : ℚ) : b ≤ qmax a b := by
  unfold qmax
  split
  · exact le_refl b
  · exact le_of_not_le (by assumption)

theorem listMaxQ_le (q : ℚ) (l : List ℚ) (hq : q ∈ l) :
    ∃ m, listMaxQ l = some m ∧ q ≤ m := by
  induction l with
  | nil => cases hq
  | cons x xs ih =>
    rcases List.mem_cons.mp hq with rfl | hmem
    · cases h : listMaxQ xs with
      | none => exact ⟨q, by simp [listMaxQ, h], le_refl q⟩
      | some m => exact ⟨qmax q m, by simp [listMaxQ, h], qmax_left q m⟩
    · obtain ⟨m, hm, hle⟩ := ih hmem
      exact ⟨qmax x m, by simp [listMaxQ, hm], le_trans hle (qmax_right x m)⟩

theorem groupMax_contrib (sub : List RawRow) (f : RawRow → Cell) (r : RawRow) (q : ℚ)
    (hr : r ∈ sub) (hq : toNum (f r) = some q) :
    ∃ m, groupMax sub f r.cycle = some m ∧ q ≤ m := by
  apply listMaxQ_le
  exact List.mem_filterMap.mpr ⟨r, List.mem_filter.mpr ⟨hr, by simp⟩, hq⟩


/- ### Column-resolution characterizations -/

theorem firstMatch_some_iff (p : List Char → Bool) :
    ∀ (cols : List (List Char)) (c : List Char), firstMatch p cols = some c ↔
      ∃ pre post, cols = pre ++ c :: post ∧ p c = true ∧ ∀ x ∈ pre, p x = false := by
  intro cols
  induction cols with
  | nil =>
    intro c
    simp only [firstMatch, List.filter_nil, List.head?_nil, false_iff]
    constructor
    · intro h
      exact Option.noConfusion h
    · rintro ⟨pre, post, hsplit, -, -⟩
      obtain ⟨-, h2⟩ := List.append_eq_nil.mp hsplit.symm
      exact List.noConfusion h2
  | cons h t ih =>
    intro c
    have hph := Bool.eq_false_or_eq_true (p h)
    rcases hph with ph | ph
    swap
    · rw [show firstMatch p (h :: t) = firstMatch p t from by
        simp [firstMatch, List.filter_cons, ph]]
      rw [ih c]
      constructor
      · rintro ⟨pre, post, hsplit, hc, hpre⟩
        refine ⟨h :: pre, post, by simp [hsplit], hc, ?_⟩
        intro x hx
        rcases List.mem_cons.mp hx with rfl | hx
        · exact ph
        · exact hpre x hx
      · rintro ⟨pre, post, hsplit, hc, hpre⟩
        cases pre with
        | nil =>
          simp only [List.nil_append, List.cons.injEq] at hsplit
          obtain ⟨rfl, -⟩ := hsplit
          rw [hc] at ph
          exact Bool.noConfusion ph
        | cons p0 ptl =>
          simp only [List.cons_append, List.cons.injEq] at hsplit
          obtain ⟨rfl, hsplit⟩ := hsplit
          exact ⟨ptl, post, hsplit, hc, fun x hx => hpre x (by simp [hx])⟩
    · rw [show firstMatch p (h :: t) = some h from by
        simp [firstMatch, List.filter_cons, ph]]
      constructor
      · intro heq
        obtain rfl := (Option.some.injEq _ _).mp heq
        exact ⟨[], t, rfl, ph, by simp⟩
      · rintro ⟨pre, post, hsplit, hc, hpre⟩
        cases pre with
        | nil =>
          simp only [List.nil_append, List.cons.injEq] at hsplit
          obtain ⟨rfl, -⟩ := hsplit
          rfl
        | cons p0 ptl =>
          simp only [List.cons_append, List.cons.injEq] at hsplit
          obtain ⟨rfl, -⟩ := hsplit
          rw [hpre h (by simp)] at ph
          exact Bool.noConfusion ph

theorem firstMatch_none_iff (p : List Char → Bool) (cols : List (List Char)) :
    firstMatch p cols = none ↔ ∀ x ∈ cols, p x = false := by
  unfold firstMatch
  rw [List.head?_eq_none_iff, List.filter_eq_nil_iff]
  constructor
  · intro h x hx
    have := h x hx
    revert this
    cases p x <;> simp
  · intro h x hx
    rw [h x hx]
    exact Bool.noConfusion

theorem resolveColumns_ok_iff (cols : List (List Char)) (cm : ColMap) :
    resolveColumns cols = .ok cm →
      firstMatch cycle_pred cols = some cm.cycle_col ∧
      firstMatch voltage_pred cols = some cm.voltage_col ∧
      firstMatch current_pred cols = some cm.current_col ∧
      firstMatch step_pred cols = some cm.step_col ∧
      firstMatch chg_cap_pred cols = some cm.chg_cap_col ∧
      firstMatch dchg_cap_pred cols = some cm.dchg_cap_col ∧
      firstMatch chg_nrg_pred cols = some cm.chg_nrg_col ∧
      firstMatch dchg_nrg_pred cols = some cm.dchg_nrg_col := by
  intro h
  simp only [resolveColumns] at h
  cases h1 : firstMatch cycle_pred cols with
  | none => rw [h1] at h; simp at h
  | some c1 =>
  cases h2 : firstMatch voltage_pred cols with
  | none => rw [h2] at h; simp at h
  | some c2 =>
  cases h3 : firstMatch current_pred cols with
  | none => rw [h3] at h; simp at h
  | some c3 =>
  cases h4 : firstMatch step_pred cols with
  | none => rw [h4] at h; simp at h
  | some c4 =>
  cases h5 : firstMatch chg_cap_pred cols with
  | none => rw [h5] at h; simp at h
  | some c5 =>
  cases h6 : firstMatch dchg_cap_pred cols with
  | none => rw [h6] at h; simp at h
  | some c6 =>
  cases h7 : firstMatch chg_nrg_pred cols with
  | none => rw [h7] at h; simp at h
  | some c7 =>
  cases h8 : firstMatch dchg_nrg_pred cols with
  | none => rw [h8] at h; simp at h
  | some c8 =>
  rw [h1, h2, h3, h4, h5, h6, h7, h8] at h
  simp only [Option.isNone_some, Bool.or_self, Bool.or_false, Bool.false_or,
    Bool.false_eq_true, if_false, Option.getD_some, Except.ok.injEq] at h
  subst h
  exact ⟨rfl, rfl, rfl, rfl, rfl, rfl, rfl, rfl⟩

theorem resolveColumns_missing (cols : List (List Char))
    (h : (firstMatch cycle_pred cols).isNone = true ∨
         (firstMatch voltage_pred cols).isNone = true ∨
         (firstMatch current_pred cols).isNone = true ∨
         (firstMatch step_pred cols).isNone = true ∨
         (firstMatch chg_cap_pred cols).isNone = true ∨
         (firstMatch dchg_cap_pred cols).isNone = true ∨
         (firstMatch chg_nrg_pred cols).isNone = true ∨
         (firstMatch dchg_nrg_pred cols).isNone = true) :
    resolveColumns cols = .error colErrMsg := by
  simp only [resolveColumns]
  rcases h with h | h | h | h | h | h | h | h <;> simp [h]

/- ### Derived-metric cell lemmas -/

theorem mkMetric_esr (m : MergedRow) :
    (mkMetric m).esr = fdiv (.num ((mkMetric m).vchg - (mkMetric m).vdchg))
      (.num ((mkMetric m).ichg - (mkMetric m).idchg)) := rfl

theorem mkMetric_ce (m : MergedRow) :
    (mkMetric m).ce = fmul100 (fdiv (.num (mkMetric m).dcap) (.num (mkMetric m).ccap)) := rfl

theorem mkMetric_ee (m : MergedRow) :
    (mkMetric m).ee = fmul100 (fdiv (.num (mkMetric m).dnrg) (.num (mkMetric m).cnrg)) := rfl

theorem normalizeRow_esr_eq (t : MetricRow)
    (ht : t.esr = fdiv (.num (t.vchg - t.vdchg)) (.num (t.ichg - t.idchg))) :
    (normalizeRow t).esr = if t.ichg = t.idchg then FVal.nan
      else FVal.num ((t.vchg - t.vdchg) / (t.ichg - t.idchg)) := by
  have hn : (normalizeRow t).esr = replaceInf t.esr := rfl
  rw [hn, ht]
  by_cases h : t.ichg = t.idchg
  · have hz : t.ichg - t.idchg = 0 := by rw [h]; ring
    rw [if_pos h, hz]
    by_cases h2 : t.vchg - t.vdchg = 0
    · simp [fdiv, h2, replaceInf]
    · by_cases h3 : 0 < t.vchg - t.vdchg
      · simp [fdiv, h2, h3, replaceInf]
      · simp [fdiv, h2, h3, replaceInf]
  · have hz : ¬(t.ichg - t.idchg = 0) := fun hc => h (sub_eq_zero.mp hc)
    rw [if_neg h]
    simp [fdiv, hz, replaceInf]

theorem normalizeRow_ce_zero (t : MetricRow)
    (ht : t.ce = fmul100 (fdiv (.num t.dcap) (.num t.ccap))) (h0 : t.ccap = 0) :
    (normalizeRow t).ce = FVal.nan := by
  have hn : (normalizeRow t).ce = replaceInf t.ce := rfl
  rw [hn, ht, h0]
  by_cases h2 : t.dcap = 0
  · simp [fdiv, h2, fmul100, replaceInf]
  · by_cases h3 : 0 < t.dcap
    · simp [fdiv, h2, h3, fmul100, replaceInf]
    · simp [fdiv, h2, h3, fmul100, replaceInf]

theorem normalizeRow_ee_zero (t : MetricRow)
    (ht : t.ee = fmul100 (fdiv (.num t.dnrg) (.num t.cnrg))) (h0 : t.cnrg = 0) :
    (normalizeRow t).ee = FVal.nan := by
  have hn : (normalizeRow t).ee = replaceInf t.ee := rfl
  rw [hn, ht, h0]
  by_cases h2 : t.dnrg = 0
  · simp [fdiv, h2, fmul100, replaceInf]
  · by_cases h3 : 0 < t.dnrg
    · simp [fdiv, h2, h3, fmul100, replaceInf]
    · simp [fdiv, h2, h3, fmul100, replaceInf]

theorem replaceInf_notInf (v : FVal) :
    replaceInf v ≠ FVal.pinf ∧ replaceInf v ≠ FVal.ninf := by
  cases v <;> simp [replaceInf]

theorem rnd6F_notInf (v : FVal) (h : v ≠ FVal.pinf ∧ v ≠ FVal.ninf) :
    rnd6F v ≠ FVal.pinf ∧ rnd6F v ≠ FVal.ninf := by
  cases v <;> simp_all [rnd6F]

theorem fmean_notInf (l : List FVal) (h : ∀ v ∈ l, v ≠ FVal.pinf ∧ v ≠ FVal.ninf) :
    fmean l ≠ FVal.pinf ∧ fmean l ≠ FVal.ninf := by
  have hp : (l.filter notNan).any isPinf = false := by
    have h1 : ¬((l.filter notNan).any isPinf = true) := by
      rw [List.any_eq_true]
      rintro ⟨v, hv, hpv⟩
      have hvl := (List.mem_filter.mp hv).1
      cases v <;> simp [isPinf] at hpv
      exact (h _ hvl).1 rfl
    revert h1
    cases (l.filter notNan).any isPinf <;> simp
  have hn : (l.filter notNan).any isNinf = false := by
    have h1 : ¬((l.filter notNan).any isNinf = true) := by
      rw [List.any_eq_true]
      rintro ⟨v, hv, hpv⟩
      have hvl := (List.mem_filter.mp hv).1
      cases v <;> simp [isNinf] at hpv
      exact (h _ hvl).2 rfl
    revert h1
    cases (l.filter notNan).any isNinf <;> simp
  simp only [fmean, hp, hn, Bool.false_and, Bool.and_false, if_false]
  split <;> simp

theorem any_map_num_isPinf (ds : List ℚ) : ((ds.map FVal.num).any isPinf) = false := by
  induction ds with
  | nil => rfl
  | cons d dd ih => simp [isPinf, ih]

theorem any_map_num_isNinf (ds : List ℚ) : ((ds.map FVal.num).any isNinf) = false := by
  induction ds with
  | nil => rfl
  | cons d dd ih => simp [isNinf, ih]

theorem fmean_map_opt {α : Type} (l : List α) (f : α → FVal) (g : α → Option ℚ)
    (h : ∀ x ∈ l, f x = match g x with | none => FVal.nan | some q => FVal.num q) :
    toOptQ (fmean (l.map f)) =
      (if (l.filterMap g).isEmpty then none
       else some ((l.filterMap g).sum / (l.filterMap g).length)) := by
  have hfilter : ∀ l' : List α,
      (∀ x ∈ l', f x = match g x with | none => FVal.nan | some q => FVal.num q) →
      (l'.map f).filter notNan = (l'.filterMap g).map FVal.num := by
    intro l'
    induction l' with
    | nil => intro; simp
    | cons x xs ih =>
      intro hx
      have hxx := hx x (by simp)
      have ih' := ih (fun y hy => hx y (by simp [hy]))
      cases hg : g x with
      | none =>
        rw [hg] at hxx
        simp only [List.map_cons, List.filter_cons, List.filterMap_cons, hg, hxx, notNan]
        simpa using ih'
      | some q =>
        rw [hg] at hxx
        simp only [List.map_cons, List.filter_cons, List.filterMap_cons, hg, hxx, notNan]
        simpa using ih'
  have hf := hfilter l h
  have hback : ((l.filterMap g).map FVal.num).filterMap toOptQ = l.filterMap g := by
    induction (l.filterMap g) with
    | nil => rfl
    | cons d dd ih => simp [toOptQ, ih]
  have hemp : ((l.filterMap g).map FVal.num).isEmpty = (l.filterMap g).isEmpty := by
    cases (l.filterMap g) <;> rfl
  simp only [fmean, hf, any_map_num_isPinf, any_map_num_isNinf, Bool.false_and,
    Bool.and_false, Bool.false_eq_true, if_false, hback, List.length_map, hemp]
  split <;> rfl

theorem finalMetrics_mem (df : List RawRow) (t : MetricRow) (ht : t ∈ finalMetrics df) :
    ∃ m : MergedRow, isComplete m = true ∧ t = mkMetric m := by
  unfold finalMetrics at ht
  obtain ⟨m, hm, rfl⟩ := List.mem_map.mp ht
  exact ⟨m, (List.mem_filter.mp hm).2, rfl⟩

theorem process_ok (rows : List RawRow)
    (h1 : (df_cc_chg (cleanRows rows)).isEmpty = false)
    (h2 : (df_cc_dchg (cleanRows rows)).isEmpty = false)
    (h3 : (finalMetrics (cleanRows rows)).isEmpty = false) :
    process_battery_data rows = .ok
      ⟨((finalMetrics (cleanRows rows)).map normalizeRow).map round6Row,
       fmean (((finalMetrics (cleanRows rows)).map normalizeRow).map (fun t => t.esr)),
       fmean (((finalMetrics (cleanRows rows)).map normalizeRow).map (fun t => t.ce)),
       fmean (((finalMetrics (cleanRows rows)).map normalizeRow).map (fun t => t.ee))⟩ := by
  unfold process_battery_data processFromClean
  simp [h1, h2, h3]

/- ### Claim theorems -/

/-- Claim C1, corrected.  The row classifier maps "CC_Chg" to neither
class (the underscore is a word character, so "cc" is not a standalone
`\b`-delimited token there), "Constant Current Discharge" to
`ConstantCurrentDischarge` only, and "Rest" to neither; and charge
classification holds exactly when the lowercased text contains the
standalone token "cc" followed later in the string — with no intervening
newline — by "chg" or "charge", or contains the whitespace-flexible
phrase "constant current charge". -/
theorem C1_row_classifier :
    mask_cc_chg "CC_Chg" = false ∧ mask_cc_dchg "CC_Chg" = false ∧
    mask_cc_dchg "Constant Current Discharge" = true ∧
    mask_cc_chg "Constant Current Discharge" = false ∧
    mask_cc_chg "Rest" = false ∧ mask_cc_dchg "Rest" = false ∧
    (∀ t : String, mask_cc_chg t = true ↔ chargeClaim (lowerData t)) :=
  ⟨by decide, by decide, by decide, by decide, by decide, by decide, mask_cc_chg_iff⟩

/-- Claim C1 counterexample: the claim says the label "CC_Chg" is
classified as `ConstantCurrentCharge`, but the charge mask rejects it
(`\bcc\b` cannot match before an underscore, which is a word character). -/
theorem C1_counterexample : mask_cc_chg "CC_Chg" = false := by decide

/-- Claim C1 witness: the classifier equivalence applied at the concrete
label "CC Chg". -/
theorem C1_witness : chargeClaim (lowerData "CC Chg") :=
  (C1_row_classifier.2.2.2.2.2.2 "CC Chg").mp (by decide)

/-- Claim C2, confirmed.  Any step label containing the standalone token
"cc" followed later (no intervening newline) by "dchg" satisfies the
charge mask as well — "dchg" contains "chg" — so such a row lands in both
classification subsets, and its voltage and current bound the CC-charge
per-cycle maxima of its cycle from below (the maxima are defined). -/
theorem C2_dchg_matches_charge (s : String)
    (h : ccSearch [dchgL] false (lowerData s) = true) :
    mask_cc_chg s = true ∧ mask_cc_dchg s = true ∧
    (∀ (df : List RawRow) (r : RawRow), r ∈ df → r.step = s →
      r ∈ df_cc_chg df ∧ r ∈ df_cc_dchg df ∧
      (∀ q, toNum r.voltage = some q →
        ∃ m, groupMax (df_cc_chg df) (fun x => x.voltage) r.cycle = some m ∧ q ≤ m) ∧
      (∀ q, toNum r.current = some q →
        ∃ m, groupMax (df_cc_chg df) (fun x => x.current) r.cycle = some m ∧ q ≤ m)) := by
  have hchg : mask_cc_chg s = true := by
    unfold mask_cc_chg
    rw [Bool.or_eq_true]
    exact Or.inl (ccSearch_mono [dchgL] chgPats dotStarLits_dchg_chg (lowerData s) false h)
  have hdchg : mask_cc_dchg s = true := by
    unfold mask_cc_dchg
    rw [Bool.or_eq_true]
    refine Or.inl (ccSearch_mono [dchgL] dchgPats (dotStarLits_subset _ _ ?_)
      (lowerData s) false h)
    intro p hp
    obtain rfl := by simpa using hp
    simp [dchgPats]
  refine ⟨hchg, hdchg, ?_⟩
  intro df r hr hstep
  have hrc : r ∈ df_cc_chg df := List.mem_filter.mpr ⟨hr, by rw [hstep]; exact hchg⟩
  have hrd : r ∈ df_cc_dchg df := List.mem_filter.mpr ⟨hr, by rw [hstep]; exact hdchg⟩
  exact ⟨hrc, hrd,
    fun q hq => groupMax_contrib _ _ r q hrc hq,
    fun q hq => groupMax_contrib _ _ r q hrc hq⟩

/-- Claim C2 witness: C2 applied at the label "CC DChg" and a one-row
table. -/
theorem C2_witness :
    mask_cc_chg "CC DChg" = true ∧ mask_cc_dchg "CC DChg" = true ∧
    ccdchgRow ∈ df_cc_chg [ccdchgRow] := by
  have h := C2_dchg_matches_charge "CC DChg" (by decide)
  exact ⟨h.1, h.2.1, (h.2.2 [ccdchgRow] ccdchgRow (by simp) rfl).1⟩

/-- Claim C3, confirmed.  When the normalized headers contain no voltage
column and no current column, resolution fails with the schema error, and
that error message names every required field (in particular both missing
ones) — it is one fixed message listing the complete set of requirements,
so it never reports only the first failing field. -/
theorem C3_schema_error (cols : List (List Char))
    (hv : ∀ c ∈ cols, voltage_pred (normHeader c) = false)
    (hc : ∀ c ∈ cols, current_pred (normHeader c) = false) :
    resolveFromRaw cols = .error colErrMsg ∧
    containsSub "voltage".data colErrMsg.data = true ∧
    containsSub "current".data colErrMsg.data = true ∧
    (∀ pat ∈ allColPats, containsSub pat colErrMsg.data = true) := by
  refine ⟨?_, by decide, by decide, by decide⟩
  unfold resolveFromRaw
  apply resolveColumns_missing
  right; left
  rw [Option.isNone_iff_eq_none, firstMatch_none_iff]
  intro x hx
  obtain ⟨c, hcm, rfl⟩ := List.mem_map.mp hx
  exact hv c hcm

/-- Claim C3 witness: C3 applied to a concrete header set missing both
voltage and current. -/
theorem C3_witness :
    resolveFromRaw ["cycle index".data, "step type".data] = .error colErrMsg ∧
    containsSub "voltage".data colErrMsg.data = true := by
  have h := C3_schema_error ["cycle index".data, "step type".data] (by decide) (by decide)
  exact ⟨h.1, h.2.1⟩

/-- Claim C5, corrected (amended form).  A full-mode input with a header
row and zero data rows fails with the `NoMatchingStepsError` for the
CC-charge subset — the first emptiness check to fire — rather than with
the no-complete-cycle `EmptyResultError`; it is still a clean error, not a
crash and not an empty-but-valid table. -/
theorem C5_empty_input : process_battery_data [] = .error noChgMsg := by decide

/-- Claim C5 counterexample: on the zero-row input the returned error is
the NoMatchingSteps message, which differs from the EmptyResult message
the claim names. -/
theorem C5_counterexample :
    process_battery_data [] = .error noChgMsg ∧ noChgMsg ≠ noCompleteMsg :=
  ⟨by decide, by decide⟩

/-- Claim C8, confirmed.  If the whole CC-charge subset of the classified
(cleaned) rows is empty, processing fails with the charge
`NoMatchingStepsError`; if it is nonempty and the CC-discharge subset is
empty, with the discharge one.  Both are file-level errors carrying no
result table. -/
theorem C8_no_matching_steps (rows : List RawRow) :
    ((df_cc_chg (cleanRows rows)).isEmpty = true →
      process_battery_data rows = .error noChgMsg) ∧
    ((df_cc_chg (cleanRows rows)).isEmpty = false →
      (df_cc_dchg (cleanRows rows)).isEmpty = true →
      process_battery_data rows = .error noDchgMsg) := by
  constructor
  · intro h
    unfold process_battery_data processFromClean
    simp [h]
  · intro h1 h2
    unfold process_battery_data processFromClean
    simp [h1, h2]

/-- Claim C8 witness: a one-row table with only a rest step has an empty
CC-charge subset and yields the charge NoMatchingSteps error. -/
theorem C8_witness :
    (df_cc_chg (cleanRows sampleRestOnly)).isEmpty = true ∧
    process_battery_data sampleRestOnly = .error noChgMsg :=
  ⟨by decide, (C8_no_matching_steps sampleRestOnly).1 (by decide)⟩

/-- Claim C6, corrected (amended form).  In full mode any merged-table row
missing one of the four ESR-input fields fails the `dropna()` filter and
is excluded from the final table, before per-cycle ESR is computed.  The
ESR-only batch script, however, performs no such drop: every outer-join
key keeps its row in its merged table, including rows missing
voltage-difference inputs. -/
theorem C6_incomplete_rows :
    (∀ (df : List RawRow) (m : MergedRow), m ∈ mergedAll df →
      (m.vchg = none ∨ m.vdchg = none ∨ m.ichg = none ∨ m.idchg = none) →
      isComplete m = false ∧ m ∉ (mergedAll df).filter isComplete) ∧
    (∀ (rows : List RawRow) (k : Int), k ∈ appKeys rows →
      ∃ a ∈ appMerged rows, a.cycle = k) := by
  constructor
  · intro df m hm hmiss
    have hc : isComplete m = false := by
      unfold isComplete
      rcases hmiss with h | h | h | h <;> simp [h]
    refine ⟨hc, ?_⟩
    intro hmem
    have := (List.mem_filter.mp hmem).2
    rw [hc] at this
    exact Bool.noConfusion this
  · intro rows k hk
    exact ⟨appRowFor rows k, List.mem_map_of_mem _ hk, rfl⟩

/-- Claim C6 counterexample: with a single CC-charge row and no
CC-discharge row, the merged table of the batch script keeps the cycle-1 row
even though its discharge voltage and current are absent — contradicting
"only rows where both voltage-difference inputs exist are kept". -/
theorem C6_counterexample :
    appMerged sampleChargeOnly = [⟨1, some 2, none, some 1, none⟩] ∧
    (appMerged sampleChargeOnly).all (fun a => a.vchg.isSome && a.vdchg.isSome) = false :=
  ⟨by decide, by decide⟩

/-- Claim C6 witness: C6 applied to the charge-only table — its merged
row (missing the discharge fields) is dropped in full mode, and its key
is kept by the batch script. -/
theorem C6_witness :
    isComplete (mergedRowFor sampleChargeOnly 1) = false ∧
    (∃ a ∈ appMerged sampleChargeOnly, a.cycle = 1) := by
  have h1 := C6_incomplete_rows.1 sampleChargeOnly (mergedRowFor sampleChargeOnly 1)
    (by decide) (by decide)
  exact ⟨h1.1, C6_incomplete_rows.2 sampleChargeOnly 1 (by decide)⟩

/-- Claim C7, confirmed.  When the structural checks pass, processing
returns a result (zero denominators never raise): a final-table cycle
with `maxI_chg = maxI_dchg` gets the explicit undefined ESR cell, zero
charge capacity/energy gives undefined efficiency cells, no displayed
cell is an infinity (they are normalized away before the means), and no
summary mean is an infinity. -/
theorem C7_zero_denominator (rows : List RawRow)
    (h1 : (df_cc_chg (cleanRows rows)).isEmpty = false)
    (h2 : (df_cc_dchg (cleanRows rows)).isEmpty = false)
    (h3 : (finalMetrics (cleanRows rows)).isEmpty = false) :
    ∃ res, process_battery_data rows = .ok res ∧
      (∀ t ∈ finalMetrics (cleanRows rows),
        (t.ichg = t.idchg → (normalizeRow t).esr = FVal.nan) ∧
        (t.ccap = 0 → (normalizeRow t).ce = FVal.nan) ∧
        (t.cnrg = 0 → (normalizeRow t).ee = FVal.nan)) ∧
      (∀ u ∈ res.table,
        (u.esr ≠ FVal.pinf ∧ u.esr ≠ FVal.ninf) ∧
        (u.ce ≠ FVal.pinf ∧ u.ce ≠ FVal.ninf) ∧
        (u.ee ≠ FVal.pinf ∧ u.ee ≠ FVal.ninf)) ∧
      (res.avg_esr ≠ FVal.pinf ∧ res.avg_esr ≠ FVal.ninf) ∧
      (res.avg_ce ≠ FVal.pinf ∧ res.avg_ce ≠ FVal.ninf) ∧
      (res.avg_ee ≠ FVal.pinf ∧ res.avg_ee ≠ FVal.ninf) := by
  refine ⟨_, process_ok rows h1 h2 h3, ?_, ?_, ?_, ?_, ?_⟩
  · intro t ht
    obtain ⟨m, hcm, rfl⟩ := finalMetrics_mem _ t ht
    refine ⟨fun hz => ?_, fun hz => normalizeRow_ce_zero _ (mkMetric_ce m) hz,
      fun hz => normalizeRow_ee_zero _ (mkMetric_ee m) hz⟩
    rw [normalizeRow_esr_eq _ (mkMetric_esr m)]
    simp [hz]
  · intro u hu
    obtain ⟨t, ht, rfl⟩ := List.mem_map.mp hu
    obtain ⟨t0, ht0, rfl⟩ := List.mem_map.mp ht
    exact ⟨rnd6F_notInf _ (replaceInf_notInf t0.esr),
           rnd6F_notInf _ (replaceInf_notInf t0.ce),
           rnd6F_notInf _ (replaceInf_notInf t0.ee)⟩
  · apply fmean_notInf
    intro v hv
    obtain ⟨t, ht, rfl⟩ := List.mem_map.mp hv
    obtain ⟨t0, -, rfl⟩ := List.mem_map.mp ht
    exact replaceInf_notInf t0.esr
  · apply fmean_notInf
    intro v hv
    obtain ⟨t, ht, rfl⟩ := List.mem_map.mp hv
    obtain ⟨t0, -, rfl⟩ := List.mem_map.mp ht
    exact replaceInf_notInf t0.ce
  · apply fmean_notInf
    intro v hv
    obtain ⟨t, ht, rfl⟩ := List.mem_map.mp hv
    obtain ⟨t0, -, rfl⟩ := List.mem_map.mp ht
    exact replaceInf_notInf t0.ee

/-- Claim C7 witness: C7 applied at a table whose single cycle has equal
maximum charge and discharge currents. -/
theorem C7_witness :
    ((df_cc_chg (cleanRows sampleZeroDelta)).isEmpty = false ∧
     (df_cc_dchg (cleanRows sampleZeroDelta)).isEmpty = false ∧
     (finalMetrics (cleanRows sampleZeroDelta)).isEmpty = false) ∧
    (∃ res, process_battery_data sampleZeroDelta = .ok res ∧
      (∀ t ∈ finalMetrics (cleanRows sampleZeroDelta),
        (t.ichg = t.idchg → (normalizeRow t).esr = FVal.nan) ∧
        (t.ccap = 0 → (normalizeRow t).ce = FVal.nan) ∧
        (t.cnrg = 0 → (normalizeRow t).ee = FVal.nan)) ∧
      (∀ u ∈ res.table,
        (u.esr ≠ FVal.pinf ∧ u.esr ≠ FVal.ninf) ∧
        (u.ce ≠ FVal.pinf ∧ u.ce ≠ FVal.ninf) ∧
        (u.ee ≠ FVal.pinf ∧ u.ee ≠ FVal.ninf)) ∧
      (res.avg_esr ≠ FVal.pinf ∧ res.avg_esr ≠ FVal.ninf) ∧
      (res.avg_ce ≠ FVal.pinf ∧ res.avg_ce ≠ FVal.ninf) ∧
      (res.avg_ee ≠ FVal.pinf ∧ res.avg_ee ≠ FVal.ninf)) :=
  ⟨⟨by decide, by decide, by decide⟩,
   C7_zero_denominator sampleZeroDelta (by decide) (by decide) (by decide)⟩

/-- Claim C9, confirmed.  Header "  Cycle Index " resolves exactly like
"cycle index" (normalization trims and lowercases before matching); a
field lookup returns `some c` precisely when `c` is the first header in
order satisfying the predicate of that field; and a successful resolution binds
each of the eight semantic fields to its first-match column. -/
theorem C9_column_resolution :
    (∀ hs1 hs2 : List (List Char),
      resolveFromRaw (hs1 ++ ["  Cycle Index ".data] ++ hs2) =
      resolveFromRaw (hs1 ++ ["cycle index".data] ++ hs2)) ∧
    normHeader "  Cycle Index ".data = "cycle index".data ∧
    (∀ (p : List Char → Bool) (cols : List (List Char)) (c : List Char),
      firstMatch p cols = some c ↔
        ∃ pre post, cols = pre ++ c :: post ∧ p c = true ∧ ∀ x ∈ pre, p x = false) ∧
    (∀ (cols : List (List Char)) (cm : ColMap), resolveColumns cols = .ok cm →
      firstMatch cycle_pred cols = some cm.cycle_col ∧
      firstMatch voltage_pred cols = some cm.voltage_col ∧
      firstMatch current_pred cols = some cm.current_col ∧
      firstMatch step_pred cols = some cm.step_col ∧
      firstMatch chg_cap_pred cols = some cm.chg_cap_col ∧
      firstMatch dchg_cap_pred cols = some cm.dchg_cap_col ∧
      firstMatch chg_nrg_pred cols = some cm.chg_nrg_col ∧
      firstMatch dchg_nrg_pred cols = some cm.dchg_nrg_col) := by
  refine ⟨?_, by decide, firstMatch_some_iff, resolveColumns_ok_iff⟩
  intro hs1 hs2
  unfold resolveFromRaw
  have hn : normHeader "  Cycle Index ".data = normHeader "cycle index".data := by decide
  simp [List.map_append, hn]

/-- Claim C9 witness: the first-match property of a successful resolution
applied at the concrete header set. -/
theorem C9_witness :
    firstMatch cycle_pred goodCols = some goodColMap.cycle_col ∧
    firstMatch voltage_pred goodCols = some goodColMap.voltage_col := by
  have h := C9_column_resolution.2.2.2 goodCols goodColMap (by decide)
  exact ⟨h.1, h.2.1⟩

/-- Claim C10, confirmed.  A row whose voltage or current cell is
non-numeric is dropped by the `dropna` step, so the cleaned table, all
four per-cycle capacity/energy maxima, and the whole pipeline result are
unchanged by deleting it — its capacity/energy cells never contribute.
Conversely, any row that survives the `dropna`, of any step class,
bounds the charge-capacity maximum of its cycle from below. -/
theorem C10_nonnumeric_rows :
    (∀ (l1 l2 : List RawRow) (r : RawRow),
      (toNum r.voltage = none ∨ toNum r.current = none) →
      cleanRows (l1 ++ r :: l2) = cleanRows (l1 ++ l2) ∧
      (∀ k, chg_cap (cleanRows (l1 ++ r :: l2)) k = chg_cap (cleanRows (l1 ++ l2)) k ∧
            dchg_cap (cleanRows (l1 ++ r :: l2)) k = dchg_cap (cleanRows (l1 ++ l2)) k ∧
            chg_nrg (cleanRows (l1 ++ r :: l2)) k = chg_nrg (cleanRows (l1 ++ l2)) k ∧
            dchg_nrg (cleanRows (l1 ++ r :: l2)) k = dchg_nrg (cleanRows (l1 ++ l2)) k) ∧
      process_battery_data (l1 ++ r :: l2) = process_battery_data (l1 ++ l2)) ∧
    (∀ (df : List RawRow) (r : RawRow) (q : ℚ), r ∈ cleanRows df →
      toNum r.chgCap = some q →
      ∃ m, chg_cap (cleanRows df) r.cycle = some m ∧ q ≤ m) := by
  constructor
  · intro l1 l2 r hbad
    have hdrop : ((toNum r.voltage).isSome && (toNum r.current).isSome) = false := by
      rcases hbad with h | h <;> simp [h]
    have hclean : cleanRows (l1 ++ r :: l2) = cleanRows (l1 ++ l2) := by
      unfold cleanRows
      rw [List.filter_append, List.filter_append, List.filter_cons, hdrop]
      simp
    refine ⟨hclean,
      fun k => ⟨by rw [hclean], by rw [hclean], by rw [hclean], by rw [hclean]⟩, ?_⟩
    unfold process_battery_data
    rw [hclean]
  · intro df r q hr hq
    exact groupMax_contrib _ _ r q hr hq

/-- Claim C10 witness: C10 applied with the bad-voltage row inserted
before a valid row — the cleaned table and the pipeline result are
unchanged (the part about the surviving row is instantiated separately). -/
theorem C10_witness :
    cleanRows ([] ++ badVoltageRow :: [ccdchgRow]) = cleanRows ([] ++ [ccdchgRow]) ∧
    process_battery_data ([] ++ badVoltageRow :: [ccdchgRow]) =
      process_battery_data ([] ++ [ccdchgRow]) := by
  have h := C10_nonnumeric_rows.1 [] [ccdchgRow] badVoltageRow (by decide)
  exact ⟨h.1, h.2.2⟩

/-- Claim C4, corrected (amended form).  For the full (GUI) pipeline the
summary ESR scalar is exactly the mean of the per-cycle ESR column over
the cycles where it is defined — a cycle with `maxI_chg = maxI_dchg` has
undefined ESR and is excluded from the denominator.  The batch script
does not satisfy this: its headline figure is `mean(ΔV)/mean(ΔI)`. -/
theorem C4_mean_esr (rows : List RawRow)
    (h1 : (df_cc_chg (cleanRows rows)).isEmpty = false)
    (h2 : (df_cc_dchg (cleanRows rows)).isEmpty = false)
    (h3 : (finalMetrics (cleanRows rows)).isEmpty = false) :
    ∃ res, process_battery_data rows = .ok res ∧
      toOptQ res.avg_esr = specMeanESR (finalMetrics (cleanRows rows)) := by
  refine ⟨_, process_ok rows h1 h2 h3, ?_⟩
  have hcell : ∀ t ∈ finalMetrics (cleanRows rows),
      ((fun t : MetricRow => t.esr) ∘ normalizeRow) t =
        match (if t.ichg = t.idchg then none
               else some ((t.vchg - t.vdchg) / (t.ichg - t.idchg)) : Option ℚ) with
        | none => FVal.nan
        | some q => FVal.num q := by
    intro t ht
    obtain ⟨m, -, rfl⟩ := finalMetrics_mem _ t ht
    show (normalizeRow (mkMetric m)).esr = _
    rw [normalizeRow_esr_eq _ (mkMetric_esr m)]
    by_cases h : (mkMetric m).ichg = (mkMetric m).idchg <;> simp [h]
  have hmean := fmean_map_opt (finalMetrics (cleanRows rows)) _ _ hcell
  show toOptQ (fmean (((finalMetrics (cleanRows rows)).map normalizeRow).map
    (fun t => t.esr))) = _
  rw [List.map_map, hmean]
  rfl

/-- Claim C4 counterexample: on a two-cycle table (ΔV = 1 in both cycles;
ΔI = 1 in cycle 1 and 0 in cycle 2) the batch script prints
`mean(ΔV)/mean(ΔI) = 1/(1/2) = 2`, while the mean of the per-cycle ESR
over the cycles where it is defined is 1 — so the claimed equation fails
for the batch-script variant. -/
theorem C4_counterexample :
    app_esr (appMerged sampleTwoCycles) = FVal.num 2 ∧
    specMeanESRApp (appMerged sampleTwoCycles) = some 1 ∧
    toOptQ (app_esr (appMerged sampleTwoCycles)) ≠
      specMeanESRApp (appMerged sampleTwoCycles) := by
  have hm : appMerged sampleTwoCycles =
      [⟨1, some 2, some 1, some 1, some 0⟩, ⟨2, some 2, some 1, some 5, some 5⟩] := by
    decide
  have h1 : app_esr (appMerged sampleTwoCycles) = FVal.num 2 := by
    rw [hm]
    simp only [app_esr, app_dv, app_di, List.map_cons, List.map_nil, fsubO, fmean,
      List.filter_cons, List.filter_nil, notNan, List.isEmpty_cons, List.any_cons,
      List.any_nil, isPinf, isNinf, List.filterMap_cons, List.filterMap_nil, toOptQ,
      List.sum_cons, List.sum_nil, List.length_cons, List.length_nil]
    norm_num
    simp [fdiv, isPinf, isNinf, toOptQ]
  have h2 : specMeanESRApp (appMerged sampleTwoCycles) = some 1 := by
    rw [hm]
    norm_num [specMeanESRApp, List.filterMap_cons, List.filterMap_nil]
  exact ⟨h1, h2, by rw [h1, h2]; norm_num [toOptQ]⟩

/-- Claim C4 witness: the GUI-pipeline equation applied at the two-cycle
table whose second cycle has a zero current delta. -/
theorem C4_witness :
    ((df_cc_chg (cleanRows sampleTwoCycles)).isEmpty = false ∧
     (df_cc_dchg (cleanRows sampleTwoCycles)).isEmpty = false ∧
     (finalMetrics (cleanRows sampleTwoCycles)).isEmpty = false) ∧
    (∃ res, process_battery_data sampleTwoCycles = .ok res ∧
      toOptQ res.avg_esr = specMeanESR (finalMetrics (cleanRows sampleTwoCycles))) :=
  ⟨⟨by decide, by decide, by decide⟩,
   C4_mean_esr sampleTwoCycles (by decide) (by decide) (by decide)⟩
